import Mathlib

set_option maxRecDepth 100000

set_option maxHeartbeats 1000000

/-!
Verification of the concurrent proof-of-work miner (`src/main.py`).

The development shallowly embeds the program: `Block`, its SHA-256 digest,
the `mine_block` search loop, chain validation, and the `concurrent_mining`
race as a small-step interleaving semantics over explicit worker schedules.
SHA-256 itself is implemented executably over `Nat` (words are values below
2^32, reduced with `% 2^32`), so concrete digests can be settled by `decide`.
-/

namespace Miner

/-! ## SHA-256 over byte lists (bytes and 32-bit words as `Nat`) -/

def wMod (x : Nat) : Nat := x % 4294967296

def wAdd (a b : Nat) : Nat := (a + b) % 4294967296

def wNot (a : Nat) : Nat := Nat.xor a 4294967295

/-- Force a `Nat` to a literal before continuing: keeps reduction thunks
shallow, so concrete digests also evaluate cheaply in proof checkers that do
not memoize weak-head normal forms. -/
def forceNat {α : Sort u} (n : Nat) (k : Nat → α) : α :=
  match n with
  | 0 => k 0
  | m + 1 => k (m + 1)

def rotr (n x : Nat) : Nat :=
  wMod (Nat.lor (Nat.shiftRight x n) (Nat.shiftLeft x (32 - n)))

def bigS0 (x : Nat) : Nat := Nat.xor (rotr 2 x) (Nat.xor (rotr 13 x) (rotr 22 x))

def bigS1 (x : Nat) : Nat := Nat.xor (rotr 6 x) (Nat.xor (rotr 11 x) (rotr 25 x))

def smallS0 (x : Nat) : Nat := Nat.xor (rotr 7 x) (Nat.xor (rotr 18 x) (Nat.shiftRight x 3))

def smallS1 (x : Nat) : Nat := Nat.xor (rotr 17 x) (Nat.xor (rotr 19 x) (Nat.shiftRight x 10))

def chFn (x y z : Nat) : Nat := Nat.xor (Nat.land x y) (Nat.land (wNot x) z)

def majFn (x y z : Nat) : Nat := Nat.xor (Nat.land x y) (Nat.xor (Nat.land x z) (Nat.land y z))

def sha256K : List Nat :=
  [1116352408, 1899447441, 3049323471, 3921009573, 961987163,
   1508970993, 2453635748, 2870763221, 3624381080, 310598401,
   607225278, 1426881987, 1925078388, 2162078206, 2614888103,
   3248222580, 3835390401, 4022224774, 264347078, 604807628,
   770255983, 1249150122, 1555081692, 1996064986, 2554220882,
   2821834349, 2952996808, 3210313671, 3336571891, 3584528711,
   113926993, 338241895, 666307205, 773529912, 1294757372,
   1396182291, 1695183700, 1986661051, 2177026350, 2456956037,
   2730485921, 2820302411, 3259730800, 3345764771, 3516065817,
   3600352804, 4094571909, 275423344, 430227734, 506948616,
   659060556, 883997877, 958139571, 1322822218, 1537002063,
   1747873779, 1955562222, 2024104815, 2227730452, 2361852424,
   2428436474, 2756734187, 3204031479, 3329325298]

/-- Big-endian 8-byte encoding of a length (in bits), as used by the padding. -/
def be8 (n : Nat) : List Nat :=
  [n / 72057594037927936 % 256, n / 281474976710656 % 256,
   n / 1099511627776 % 256, n / 4294967296 % 256,
   n / 16777216 % 256, n / 65536 % 256, n / 256 % 256, n % 256]

def padMsg (bs : List Nat) : List Nat :=
  bs ++ 128 :: List.replicate ((119 - bs.length % 64) % 64) 0 ++ be8 (8 * bs.length)

/-- Big-endian 4-byte groups to 32-bit words. -/
def toWords : List Nat → List Nat
  | b0 :: b1 :: b2 :: b3 :: rest => (((b0 * 256 + b1) * 256 + b2) * 256 + b3) :: toWords rest
  | _ => []

/-- The message schedule, produced forward with a sliding 16-word window:
emits `n` words `W[t]`, where `W[t] = s1 W[t-2] + W[t-7] + s0 W[t-15] +
W[t-16]` past the first sixteen. -/
def schedWords (n : Nat) : Nat → Nat → Nat → Nat → Nat → Nat → Nat → Nat →
    Nat → Nat → Nat → Nat → Nat → Nat → Nat → Nat → List Nat :=
  match n with
  | 0 => fun _ _ _ _ _ _ _ _ _ _ _ _ _ _ _ _ => []
  | m + 1 => fun w0 w1 w2 w3 w4 w5 w6 w7 w8 w9 w10 w11 w12 w13 w14 w15 =>
      forceNat (wAdd (wAdd (smallS1 w14) w9) (wAdd (smallS0 w1) w0)) fun w16 =>
      w0 :: schedWords m w1 w2 w3 w4 w5 w6 w7 w8 w9 w10 w11 w12 w13 w14 w15 w16

structure Digest8 where
  a : Nat
  b : Nat
  c : Nat
  d : Nat
  e : Nat
  f : Nat
  g : Nat
  h : Nat
deriving DecidableEq, Repr

/-- The 64 compression rounds, driven by the zipped round-constant and
schedule lists, with the eight working variables carried explicitly. -/
def roundsGo : List Nat → List Nat → Nat → Nat → Nat → Nat → Nat → Nat → Nat → Nat → Digest8
  | k :: ks, w :: ws, a, b, c, d, e, f, g, h =>
      forceNat (wAdd (wAdd h (bigS1 e)) (wAdd (chFn e f g) (wAdd k w))) fun t1 =>
      forceNat (wAdd (bigS0 a) (majFn a b c)) fun t2 =>
      roundsGo ks ws (wAdd t1 t2) a b c (wAdd d t1) e f g
  | _, _, a, b, c, d, e, f, g, h => ⟨a, b, c, d, e, f, g, h⟩

def compress (s : Digest8) (chunk : List Nat) : Digest8 :=
  match toWords chunk with
  | w0 :: w1 :: w2 :: w3 :: w4 :: w5 :: w6 :: w7 ::
    w8 :: w9 :: w10 :: w11 :: w12 :: w13 :: w14 :: w15 :: _ =>
      match roundsGo sha256K
          (schedWords 64 w0 w1 w2 w3 w4 w5 w6 w7 w8 w9 w10 w11 w12 w13 w14 w15)
          s.a s.b s.c s.d s.e s.f s.g s.h with
      | ⟨a, b, c, d, e, f, g, h⟩ =>
          forceNat (wAdd s.a a) fun r0 => forceNat (wAdd s.b b) fun r1 =>
          forceNat (wAdd s.c c) fun r2 => forceNat (wAdd s.d d) fun r3 =>
          forceNat (wAdd s.e e) fun r4 => forceNat (wAdd s.f f) fun r5 =>
          forceNat (wAdd s.g g) fun r6 => forceNat (wAdd s.h h) fun r7 =>
          ⟨r0, r1, r2, r3, r4, r5, r6, r7⟩
  | _ => s

def chunksGo : Nat → List Nat → List (List Nat)
  | 0, _ => []
  | n + 1, bs => if bs.isEmpty then [] else bs.take 64 :: chunksGo n (bs.drop 64)

def sha256Init : Digest8 :=
  ⟨1779033703, 3144134277, 1013904242, 2773480762,
   1359893119, 2600822924, 528734635, 1541459225⟩

def sha256Digest (bs : List Nat) : Digest8 :=
  let padded := padMsg bs
  (chunksGo padded.length padded).foldl compress sha256Init

def hexDigit (n : Nat) : Char := if n < 10 then Char.ofNat (48 + n) else Char.ofNat (87 + n)

/-- 8 lowercase hex digits of a 32-bit word, most significant first. -/
def hexWord (w : Nat) : List Char :=
  [hexDigit (w / 268435456 % 16), hexDigit (w / 16777216 % 16),
   hexDigit (w / 1048576 % 16), hexDigit (w / 65536 % 16),
   hexDigit (w / 4096 % 16), hexDigit (w / 256 % 16),
   hexDigit (w / 16 % 16), hexDigit (w % 16)]

def digestHex (s : Digest8) : String :=
  String.mk (hexWord s.a ++ hexWord s.b ++ hexWord s.c ++ hexWord s.d ++
             hexWord s.e ++ hexWord s.f ++ hexWord s.g ++ hexWord s.h)

/-- Byte encoding of a string; models Python `str.encode()` (the program only
hashes ASCII content, where UTF-8 bytes coincide with code points). -/
def strBytes (s : String) : List Nat := s.data.map Char.toNat

/-- Models `hashlib.sha256(value.encode()).hexdigest()`. -/
def sha256hex (s : String) : String := digestHex (sha256Digest (strBytes s))

/-! ## Block (`class Block`, src/main.py lines 11-71)

`timestamp` and `data` are modelled by their Python string representations
(`str(self.timestamp)`, `str(self.data)`): `calculate_hash` only ever uses
them through `str(...)`, and the rest of the program never inspects them. -/

structure Block where
  index : Nat
  previous_hash : String
  timestamp : String
  data : String
  nonce : Nat
  hash : String
deriving DecidableEq, Repr

/-- The digest of the five content fields, concatenated in the source's order
(`str(self.index) + self.previous_hash + str(self.timestamp) + str(self.data)
+ str(self.nonce)`, line 42-48). -/
def calcHashFields (index : Nat) (previous_hash timestamp data : String) (nonce : Nat) : String :=
  sha256hex (toString index ++ previous_hash ++ timestamp ++ data ++ toString nonce)

/-- `Block.calculate_hash` (lines 37-49): reads only the five content fields. -/
def calculate_hash (b : Block) : String :=
  calcHashFields b.index b.previous_hash b.timestamp b.data b.nonce

/-- `Block.__init__` (lines 26-32): stores the fields and seals the block by
computing `self.hash = self.calculate_hash()`. -/
def mkBlock (index : Nat) (previous_hash timestamp data : String) (nonce : Nat) : Block :=
  ⟨index, previous_hash, timestamp, data, nonce, calcHashFields index previous_hash timestamp data nonce⟩

/-- Models Python `"0" * difficulty` (line 62); a negative count yields `""`. -/
def zeros (d : Int) : String := String.mk (List.replicate d.toNat '0')

/-- Models Python `str.startswith`. -/
def startswith (s p : String) : Bool := List.isPrefixOf p.data s.data

/-- One iteration of the `mine_block` loop body (lines 64-71): recompute the
hash; if it has the required leading zeros, the finder keeps it and stops
(`true`), otherwise the nonce is incremented (`false`). -/
def mineIter (zs : String) (b : Block) : Block × Bool :=
  let b1 : Block := { b with hash := calculate_hash b }
  if startswith b1.hash zs then (b1, true) else ({ b1 with nonce := b1.nonce + 1 }, false)

/-- `Block.mine_block` (lines 51-71) as a function of the run in which the
shared `stop_event` is observed set at the `fuel`-th top-of-loop check:
iterations `0, ..., fuel-1` see the event clear; if none of them finds a
satisfying hash, the check numbered `fuel` sees it set and the worker returns
pre-empted (`false`). A `true` result is the finder, which set the event
itself. -/
def mine_block (b : Block) (zs : String) : Nat → Block × Bool
  | 0 => (b, false)
  | fuel + 1 =>
      match mineIter zs b with
      | (b1, true) => (b1, true)
      | (b1, false) => mine_block b1 zs fuel

/-! ## Chain validation (`Blockchain._validate_chain`, lines 102-127) -/

/-- Which check failed, and at which index: `invalidHash i` is the line-111
self-consistency failure at index `i`, `invalidPrev i` the line-120 linkage
failure. -/
inductive ValidationFailure where
  | invalidHash (i : Nat)
  | invalidPrev (i : Nat)
deriving DecidableEq, Repr

/-- The loop of `_validate_chain` over adjacent pairs, carrying the index `i`
of the current block; returns the first failure, `none` when every check
passes. -/
def validateFrom (i : Nat) : List Block → Option ValidationFailure
  | prev :: cur :: rest =>
      if cur.hash ≠ calculate_hash cur then some (.invalidHash i)
      else if cur.previous_hash ≠ prev.hash then some (.invalidPrev i)
      else validateFrom (i + 1) (cur :: rest)
  | _ => none

/-- `_validate_chain` with its failure report (the source prints the index and
which check failed, then returns `False`). -/
def validateReport (chain : List Block) : Option ValidationFailure := validateFrom 1 chain

/-- `Blockchain._validate_chain` (lines 102-127): `True` iff no check fails. -/
def validate_chain (chain : List Block) : Bool := (validateReport chain).isNone

/-! ## Blockchain (`class Blockchain`, lines 74-127) -/

structure Blockchain where
  chain : List Block
  difficulty : Int
deriving DecidableEq, Repr

/-- `create_genesis_block` (lines 88-89); `ts` models `time.time()`. -/
def create_genesis_block (ts : String) : Block := mkBlock 0 "0" ts "GenesisBlock" 0

/-- `Blockchain.__init__` (lines 84-86): genesis-only chain, no validation of
the difficulty argument. -/
def Blockchain.init (ts : String) (difficulty : Int) : Blockchain :=
  ⟨[create_genesis_block ts], difficulty⟩

/-- `Blockchain.validate_blockchain` (lines 99-100). -/
def validate_blockchain (bc : Blockchain) : Bool := validate_chain bc.chain

/-! ## The concurrent mining race (`concurrent_mining`, lines 129-221)

Small-step interleaving semantics. Each worker runs the nested `mine`
function (lines 158-194). Shared state is the `stop_event` and the `result`
slot; a worker's candidate block is thread-local. Granularity:

* one step for the `while not stop_event.is_set()` check plus, when clear,
  the creation of the fresh `block_copy` (lines 165-173) — the copy touches
  no shared state;
* one step per iteration of `block_copy.mine_block` (lines 63-71) — each
  iteration reads `stop_event` once at its top and possibly sets it on a
  find, all other work being local;
* one atomic step for the whole `with result_lock:` section (lines 179-194)
  — the lock serializes these sections, and inside it only `result` and
  `stop_event` are touched, so its internals never interleave observably
  with other workers' steps.

`self.chain` and the template are read-only for the duration of the race
(the append on line 214 happens only after all threads are joined). -/

inductive WorkerPC where
  | whileCheck
  | mining (b : Block)
  | commitAttempt (b : Block)
  | done
deriving DecidableEq, Repr

structure RaceConfig where
  template : Block
  chain : List Block
  zs : String
deriving Repr

structure RaceState where
  stop : Bool
  result : Option Block
  workers : List WorkerPC
deriving DecidableEq, Repr

/-- Lines 167-173: `Block(template.index, template.previous_hash,
template.timestamp, template.data, nonce=0)` — `__init__` seals it. -/
def freshCopy (t : Block) : Block := mkBlock t.index t.previous_hash t.timestamp t.data 0

/-- One step of one worker: new program counter, new `stop`, new `result`. -/
def workerStep (cfg : RaceConfig) (stop : Bool) (result : Option Block) :
    WorkerPC → WorkerPC × Bool × Option Block
  | .whileCheck =>
      if stop then (.done, stop, result)
      else (.mining (freshCopy cfg.template), stop, result)
  | .mining b =>
      if stop then (.commitAttempt b, stop, result)
      else
        match mineIter cfg.zs b with
        | (b1, true) => (.commitAttempt b1, true, result)
        | (b1, false) => (.mining b1, stop, result)
  | .commitAttempt b =>
      match result with
      | none =>
          if validate_chain (cfg.chain ++ [b]) then (.whileCheck, true, some b)
          else (.whileCheck, stop, result)
      | some _ => (.whileCheck, stop, result)
  | .done => (.done, stop, result)

/-- Scheduler: run worker `w` for one step (no effect on an absent index). -/
def raceStep (cfg : RaceConfig) (s : RaceState) (w : Nat) : RaceState :=
  match s.workers.get? w with
  | none => s
  | some pc =>
      match workerStep cfg s.stop s.result pc with
      | (pc1, stop1, res1) => ⟨stop1, res1, s.workers.set w pc1⟩

def runRace (cfg : RaceConfig) (s : RaceState) (sched : List Nat) : RaceState :=
  sched.foldl (raceStep cfg) s

/-- Lines 150-156 and 196-202: clear event, empty result slot, `num_threads`
workers about to enter the `mine` loop (`range` of a non-positive count spawns
none). -/
def initRace (num_threads : Int) : RaceState :=
  ⟨false, none, List.replicate num_threads.toNat .whileCheck⟩

def allDone (s : RaceState) : Bool := s.workers.all fun w => w matches .done

/-- `Blockchain.concurrent_mining` (lines 129-221) under the worker schedule
`sched`: build the template from the chain tip (`none` models the `IndexError`
of `chain[-1]` on an empty chain, unreachable from `Blockchain.init`), run the
race, then append the result slot's block, if any, to the chain (lines
210-217). Returns the updated `Blockchain` and the mined block. -/
def concurrent_mining (bc : Blockchain) (ts data : String) (num_threads : Int)
    (sched : List Nat) : Option (Blockchain × Option Block) :=
  match bc.chain.getLast? with
  | none => none
  | some tip =>
      let cfg : RaceConfig :=
        ⟨mkBlock (tip.index + 1) tip.hash ts data 0, bc.chain, zeros bc.difficulty⟩
      let final := runRace cfg (initRace num_threads) sched
      match final.result with
      | some b => some (⟨bc.chain ++ [b], bc.difficulty⟩, some b)
      | none => some (bc, none)

/-! ## Python object equality for `Block`

`class Block` defines no `__eq__`, so Python compares `Block` instances by
`object.__eq__`, i.e. object identity. A Python object is modelled as its
field record together with an object id. -/

structure BlockObj where
  oid : Nat
  val : Block
deriving DecidableEq, Repr

/-- `==` on `Block` instances: default identity comparison. -/
def blockPyEq (a b : BlockObj) : Bool := a.oid == b.oid

/-- Placeholder block for out-of-range `List.getD` reads in statements. -/
def dummyBlock : Block := ⟨0, "", "", "", 0, ""⟩

/-! Concrete sealed blocks for the concrete-run theorems. Each hash field is
the SHA-256 hex digest of that block's field concatenation; the theorems
that use a literal also assert it equals the corresponding `mkBlock` or
`create_genesis_block` expression, which recomputes the digest. -/

/-- The genesis block at timestamp `"100"`. -/
def gBlock : Block :=
  ⟨0, "0", "100", "GenesisBlock", 0,
   "f31be4a3fd12b2d50412778126144c3c8dc543f946e7bf49314f5afd4b131253"⟩

/-- The sealed nonce-0 copy of the template `(1, gBlock.hash, "200", "r")`;
its digest has no leading zero, while the same template at nonce 1 digests
to `01200def...`, which has one. -/
def c1Committed : Block :=
  ⟨1, "f31be4a3fd12b2d50412778126144c3c8dc543f946e7bf49314f5afd4b131253", "200", "r", 0,
   "744dbd5cfde07d31cc5910a4ebe02324d8a4f5f3c016795bb06e7e629700e901"⟩

/-- A self-consistent block whose `previous_hash` (`"XX"`) does not match the
genesis hash: linkage invariant 2 fails at index 1 of `[gBlock, badBlock]`. -/
def badBlock : Block :=
  ⟨1, "XX", "500", "bad", 0,
   "c0e1ed5b1cab0dca2ff07d7e9f3719855e62c3b2d57ee83eeaf28dc73b4142c5"⟩

/-- The race configuration `concurrent_mining` builds over the broken chain
`[gBlock, badBlock]` at difficulty 0 with payload `"w"` and timestamp
`"600"`. -/
def c4Config : RaceConfig :=
  ⟨mkBlock 2 badBlock.hash "600" "w" 0, [gBlock, badBlock], zeros 0⟩

/-- The sealed block `(1, gBlock.hash, "300", "p", 0)`. -/
def b1Block : Block :=
  ⟨1, "f31be4a3fd12b2d50412778126144c3c8dc543f946e7bf49314f5afd4b131253", "300", "p", 0,
   "f769a32047c321461da5cf98b1fbd838e2251751358f74514fb3d58de2b4bcd5"⟩

/-- The sealed block `(1, gBlock.hash, "210", "d2", 0)`. -/
def c2Block : Block :=
  ⟨1, "f31be4a3fd12b2d50412778126144c3c8dc543f946e7bf49314f5afd4b131253", "210", "d2", 0,
   "249090b0b3b97be358f93ec7a1cc4ef212f0e4a22ad7a33bb84b6fc0a19a24ae"⟩

/-- The sealed block `(1, gBlock.hash, "220", "d3", 0)`. -/
def c3Block : Block :=
  ⟨1, "f31be4a3fd12b2d50412778126144c3c8dc543f946e7bf49314f5afd4b131253", "220", "d3", 0,
   "df481ee745d6fad14e3777069cb79d36a7fdd8bb989b3c5102e99b7b122ffd6c"⟩

/-- The two validation invariants, stated over adjacent pairs: every
non-genesis block is self-consistent and linked to its predecessor. -/
def chainLinked : List Block → Prop
  | prev :: cur :: rest =>
      cur.hash = calculate_hash cur ∧ cur.previous_hash = prev.hash ∧ chainLinked (cur :: rest)
  | _ => True

end Miner

namespace Miner

/-! ## Helper lemmas -/

/-- A pre-empted `mine_block` run (`fuel` failed iterations, then the stop
event is observed set): the content fields other than the nonce are
preserved, the nonce advances by exactly `fuel`, a zero-iteration run
returns the block unchanged, and after at least one iteration the stored
hash is the digest of the block at the nonce one below the final one. -/
theorem mine_block_preempted (zs : String) :
    ∀ (fuel : Nat) (b b1 : Block), mine_block b zs fuel = (b1, false) →
      b1.index = b.index ∧ b1.previous_hash = b.previous_hash ∧
      b1.timestamp = b.timestamp ∧ b1.data = b.data ∧
      b1.nonce = b.nonce + fuel ∧ (fuel = 0 → b1 = b) ∧
      ∀ j, fuel = j + 1 →
        b1.hash = calcHashFields b.index b.previous_hash b.timestamp b.data (b.nonce + j) := by
  intro fuel
  induction fuel with
  | zero =>
      intro b b1 h
      have hb : b1 = b := by
        simpa [mine_block] using congrArg Prod.fst h.symm
      subst hb
      refine ⟨rfl, rfl, rfl, rfl, by omega, fun _ => rfl, fun j hj => by omega⟩
  | succ n ih =>
      intro b b1 h
      rw [mine_block] at h
      rcases hIter : mineIter zs b with ⟨bi, flag⟩
      rw [hIter] at h
      cases flag with
      | true => exact absurd (congrArg Prod.snd h) (by simp)
      | false =>
          have hbi : bi = ⟨b.index, b.previous_hash, b.timestamp, b.data, b.nonce + 1,
              calculate_hash b⟩ := by
            rw [mineIter] at hIter
            by_cases hsw : startswith (calculate_hash b) zs
            · simp [hsw] at hIter
            · simp [hsw] at hIter
              exact hIter.symm
          obtain ⟨h1, h2, h3, h4, h5, h6, h7⟩ := ih bi b1 h
          subst hbi
          refine ⟨h1, h2, h3, h4, by simp at h5; omega, fun hk => by omega, ?_⟩
          intro j hj
          cases n with
          | zero =>
              have hb1 : b1 = ⟨b.index, b.previous_hash, b.timestamp, b.data, b.nonce + 1,
                  calculate_hash b⟩ := h6 rfl
              have hj0 : j = 0 := by omega
              subst hj0
              rw [hb1]
              simp [calculate_hash]
          | succ m =>
              have := h7 m rfl
              simp [calcHashFields] at this ⊢
              have hj' : j = m + 1 := by omega
              subst hj'
              have harith : b.nonce + 1 + m = b.nonce + (m + 1) := by omega
              rw [harith] at this
              exact this

/-- Every check of `validateFrom` passes on a chain whose adjacent pairs obey
the two invariants. -/
theorem validateFrom_eq_none :
    ∀ (c : List Block) (j : Nat), chainLinked c → validateFrom j c = none := by
  intro c
  induction c with
  | nil => intro j _; rfl
  | cons a rest ih =>
      intro j h
      cases rest with
      | nil => rfl
      | cons b rest2 =>
          obtain ⟨h1, h2, h3⟩ := h
          rw [validateFrom]
          simp [h1, h2]
          exact ih (j + 1) h3

end Miner

namespace Miner

/-- The commit section only ever stores a candidate that passed the
speculative validation of `chain + [candidate]`; one race step preserves
this property of the result slot. -/
theorem raceStep_result_valid (cfg : RaceConfig) (s : RaceState) (w : Nat)
    (hs : ∀ b, s.result = some b → validate_chain (cfg.chain ++ [b]) = true) :
    ∀ b, (raceStep cfg s w).result = some b → validate_chain (cfg.chain ++ [b]) = true := by
  intro b hb
  rw [raceStep] at hb
  rcases hw : s.workers.get? w with _ | pc
  · rw [hw] at hb; exact hs b hb
  · rw [hw] at hb
    cases pc with
    | whileCheck =>
        by_cases hstop : s.stop <;> simp [workerStep, hstop] at hb <;> exact hs b hb
    | mining b0 =>
        by_cases hstop : s.stop
        · simp [workerStep, hstop] at hb; exact hs b hb
        · rcases hIter : mineIter cfg.zs b0 with ⟨b1, flag⟩
          cases flag <;> simp [workerStep, hstop, hIter] at hb <;> exact hs b hb
    | commitAttempt b0 =>
        rcases hres : s.result with _ | r
        · by_cases hv : validate_chain (cfg.chain ++ [b0])
          · simp [workerStep, hres, hv] at hb
            rw [hb] at hv; exact hv
          · simp [workerStep, hres, hv] at hb
        · simp [workerStep, hres] at hb
          exact hs b (by rw [hres, hb])
    | done => simp [workerStep] at hb; exact hs b hb

/-- The result-slot validity property holds after any schedule. -/
theorem runRace_result_valid (cfg : RaceConfig) (sched : List Nat) :
    ∀ (s : RaceState), (∀ b, s.result = some b → validate_chain (cfg.chain ++ [b]) = true) →
      ∀ b, (runRace cfg s sched).result = some b → validate_chain (cfg.chain ++ [b]) = true := by
  induction sched with
  | nil => intro s hs; exact hs
  | cons w rest ih =>
      intro s hs
      exact ih (raceStep cfg s w) (raceStep_result_valid cfg s w hs)

/-- A race with no workers never changes its state. -/
theorem runRace_no_workers (cfg : RaceConfig) (sched : List Nat) :
    ∀ (s : RaceState), s.workers = [] → runRace cfg s sched = s := by
  induction sched with
  | nil => intro s _; rfl
  | cons w rest ih =>
      intro s hs
      have hstep : raceStep cfg s w = s := by
        rw [raceStep, hs]
        rfl
      show runRace cfg (raceStep cfg s w) rest = s
      rw [hstep]
      exact ih s hs

end Miner

open Miner

/-- C9: `Block.calculate_hash` is a pure, deterministic function: the digest
is the SHA-256 hex digest of the concatenation of the five content fields in
the fixed order index, previous_hash, timestamp, data, nonce; blocks agreeing
on these five fields (whatever their stored `hash`) get the same digest. -/
theorem claim9_calculate_hash_deterministic :
    (∀ b : Block, calculate_hash b =
      sha256hex (toString b.index ++ b.previous_hash ++ b.timestamp ++ b.data ++
        toString b.nonce)) ∧
    (∀ b c : Block, b.index = c.index → b.previous_hash = c.previous_hash →
      b.timestamp = c.timestamp → b.data = c.data → b.nonce = c.nonce →
      calculate_hash b = calculate_hash c) := by
  refine ⟨fun b => rfl, fun b c h1 h2 h3 h4 h5 => ?_⟩
  rw [calculate_hash, calculate_hash, h1, h2, h3, h4, h5]

/-- Witness for C9 at a concrete block, with a differing stored `hash`. -/
theorem claim9_witness :
    calculate_hash ⟨3, "p", "t", "d", 7, "x"⟩ =
      sha256hex (toString 3 ++ "p" ++ "t" ++ "d" ++ toString 7) ∧
    calculate_hash ⟨3, "p", "t", "d", 7, "x"⟩ = calculate_hash ⟨3, "p", "t", "d", 7, "y"⟩ :=
  ⟨claim9_calculate_hash_deterministic.1 ⟨3, "p", "t", "d", 7, "x"⟩,
   claim9_calculate_hash_deterministic.2 ⟨3, "p", "t", "d", 7, "x"⟩ ⟨3, "p", "t", "d", 7, "y"⟩
     rfl rfl rfl rfl rfl⟩

/-- C10 counterexample: `class Block` defines no `__eq__`, so Python's
default identity comparison applies; two distinct instances with all six
fields equal compare as NOT equal, refuting value-based equality. -/
theorem claim10_counterexample :
    blockPyEq ⟨0, ⟨1, "p", "t", "d", 0, "h"⟩⟩ ⟨1, ⟨1, "p", "t", "d", 0, "h"⟩⟩ = false ∧
    (BlockObj.mk 0 ⟨1, "p", "t", "d", 0, "h"⟩).val =
      (BlockObj.mk 1 ⟨1, "p", "t", "d", 0, "h"⟩).val := ⟨rfl, rfl⟩

/-- C10 amended: `Block` equality is Python's default object identity —
two instances compare equal exactly when they are the same object,
irrespective of their field values. -/
theorem claim10_equality_is_by_identity (a b : BlockObj) :
    blockPyEq a b = true ↔ a.oid = b.oid := by
  rw [blockPyEq]
  exact beq_iff_eq

/-- Witness for C10 at a concrete pair of references to one object. -/
theorem claim10_witness :
    blockPyEq ⟨5, ⟨1, "p", "t", "d", 0, "h"⟩⟩ ⟨5, ⟨2, "q", "u", "e", 1, "i"⟩⟩ = true :=
  (claim10_equality_is_by_identity ⟨5, ⟨1, "p", "t", "d", 0, "h"⟩⟩
    ⟨5, ⟨2, "q", "u", "e", 1, "i"⟩⟩).mpr rfl

/-- C8: a `mine_block` run pre-empted by the stop event after `k` failed
attempts leaves the nonce one past the last hashed value (`b.nonce + k`,
where the last digest was taken at `b.nonce + k - 1`), so the stored hash is
that stale digest and — whenever the digests at the two consecutive nonces
differ — the sealed-hash invariant `hash = calculate_hash` is violated; a
run pre-empted before its first attempt (`k = 0`) returns the block
unchanged, so a fresh nonce-0 copy stays self-consistent. -/
theorem claim8_preempted_candidate_state (b b1 : Block) (zs : String) (k : Nat)
    (hrun : mine_block b zs k = (b1, false)) :
    b1.nonce = b.nonce + k ∧
    (k = 0 → b1 = b) ∧
    (k = 0 → b = mkBlock b.index b.previous_hash b.timestamp b.data b.nonce →
      b1.hash = calculate_hash b1) ∧
    (∀ j, k = j + 1 →
      b1.hash = calcHashFields b.index b.previous_hash b.timestamp b.data (b.nonce + j)) ∧
    (∀ j, k = j + 1 →
      calcHashFields b.index b.previous_hash b.timestamp b.data (b.nonce + j) ≠
        calcHashFields b.index b.previous_hash b.timestamp b.data (b.nonce + k) →
      b1.hash ≠ calculate_hash b1) := by
  obtain ⟨h1, h2, h3, h4, h5, h6, h7⟩ := mine_block_preempted zs k b b1 hrun
  refine ⟨h5, h6, ?_, h7, ?_⟩
  · intro hk hmk
    rw [h6 hk, hmk]
    rfl
  · intro j hj hne
    have hhash := h7 j hj
    have hch : calculate_hash b1 =
        calcHashFields b.index b.previous_hash b.timestamp b.data (b.nonce + k) := by
      rw [calculate_hash, h1, h2, h3, h4, h5]
    rw [hhash, hch]
    exact hne

/-- Witness for C8: one failed attempt at difficulty 60, then pre-emption;
the stored hash is the stale nonce-0 digest and self-consistency fails. -/
theorem claim8_witness :
    (mine_block (mkBlock 1 "aa" "400" "d8" 0) (zeros 60) 1).1.hash ≠
      calculate_hash (mine_block (mkBlock 1 "aa" "400" "d8" 0) (zeros 60) 1).1 :=
  (claim8_preempted_candidate_state (mkBlock 1 "aa" "400" "d8" 0)
      (mine_block (mkBlock 1 "aa" "400" "d8" 0) (zeros 60) 1).1 (zeros 60) 1
      (by decide)).2.2.2.2 0 rfl (by decide)

namespace Miner

/-- Pointwise invariants (indexed reads) imply the pairwise `chainLinked`. -/
theorem chainLinked_of_pointwise :
    ∀ (c : List Block),
      (∀ i, i + 1 < c.length →
        (c.getD (i + 1) dummyBlock).hash = calculate_hash (c.getD (i + 1) dummyBlock) ∧
        (c.getD (i + 1) dummyBlock).previous_hash = (c.getD i dummyBlock).hash) →
      chainLinked c := by
  intro c
  induction c with
  | nil => intro _; trivial
  | cons a rest ih =>
      cases rest with
      | nil => intro _; trivial
      | cons b rest2 =>
          intro h
          have h0 := h 0 (by simp)
          simp only [List.getD_cons_succ, List.getD_cons_zero] at h0
          refine ⟨h0.1, h0.2, ih ?_⟩
          intro i hi
          have hstep := h (i + 1) (by simp at hi ⊢; omega)
          simpa only [List.getD_cons_succ] using hstep

/-- Tampering `previous_hash` at position `i` of a chain whose checks all
pass makes the line-111 self-consistency check fail there (the tampered
field participates in the block's own digest), while every earlier check
still passes: the loop reaches index `i` and reports an invalid hash
there. -/
theorem validateFrom_set_tampered :
    ∀ (c : List Block) (j i : Nat) (v : String),
      validateFrom j c = none → 0 < i → i < c.length →
      calcHashFields (c.getD i dummyBlock).index v (c.getD i dummyBlock).timestamp
          (c.getD i dummyBlock).data (c.getD i dummyBlock).nonce ≠
        (c.getD i dummyBlock).hash →
      validateFrom j (c.set i { c.getD i dummyBlock with previous_hash := v }) =
        some (.invalidHash (j + i - 1)) := by
  intro c
  induction c with
  | nil => intro j i v _ _ hlen _; simp at hlen
  | cons a rest ih =>
      intro j i v hval hpos hlen hnc
      cases rest with
      | nil => simp at hlen; omega
      | cons b rest2 =>
          rw [validateFrom] at hval
          by_cases hb1 : b.hash ≠ calculate_hash b
          · simp [hb1] at hval
          · by_cases hb2 : b.previous_hash ≠ a.hash
            · simp [hb1, hb2] at hval
            · simp only [if_neg hb1, if_neg hb2] at hval
              cases i with
              | zero => omega
              | succ i1 =>
                  cases i1 with
                  | zero =>
                      simp only [List.getD_cons_succ, List.getD_cons_zero] at hnc
                      show validateFrom j
                          (a :: { b with previous_hash := v } :: rest2) = _
                      rw [validateFrom]
                      have hcond : ({ b with previous_hash := v } : Block).hash ≠
                          calculate_hash { b with previous_hash := v } := by
                        show b.hash ≠ calcHashFields b.index v b.timestamp b.data b.nonce
                        exact fun he => hnc (he.symm)
                      rw [if_pos hcond]
                      have harith : j + (0 + 1) - 1 = j := by omega
                      rw [harith]
                  | succ i2 =>
                      show validateFrom j (a :: (b :: rest2).set (i2 + 1)
                          { (b :: rest2).getD (i2 + 1) dummyBlock with previous_hash := v }) = _
                      have hset : ((b :: rest2).set (i2 + 1)
                          { (b :: rest2).getD (i2 + 1) dummyBlock with previous_hash := v }) =
                          b :: rest2.set i2
                            { (b :: rest2).getD (i2 + 1) dummyBlock with previous_hash := v } := rfl
                      rw [hset, validateFrom, if_neg hb1, if_neg hb2, ← hset]
                      have hrec := ih (j + 1) (i2 + 1) v hval (by omega)
                        (by simp at hlen ⊢; omega) hnc
                      rw [hrec]
                      have harith : j + 1 + (i2 + 1) - 1 = j + (i2 + 1 + 1) - 1 := by omega
                      rw [harith]

end Miner

/-- C6: `_validate_chain` checks exactly the two invariants — every chain
whose non-genesis blocks are self-consistent and correctly linked validates
as `True`; the function takes no difficulty argument and never examines
leading zeros, so speculative validation during arbitration does not
re-check the proof-of-work predicate. -/
theorem claim6_validation_ignores_difficulty (chain : List Block)
    (h : ∀ i, i + 1 < chain.length →
      (chain.getD (i + 1) dummyBlock).hash = calculate_hash (chain.getD (i + 1) dummyBlock) ∧
      (chain.getD (i + 1) dummyBlock).previous_hash = (chain.getD i dummyBlock).hash) :
    validate_chain chain = true := by
  rw [validate_chain, validateReport, validateFrom_eq_none chain 1 (chainLinked_of_pointwise chain h)]
  rfl

/-- Witness for C6: a two-block chain in which neither hash has even one
leading zero character still validates as `True`. -/
theorem claim6_witness :
    validate_chain [gBlock, b1Block] = true ∧
    startswith gBlock.hash (zeros 1) = false ∧
    startswith b1Block.hash (zeros 1) = false := by
  refine ⟨claim6_validation_ignores_difficulty _ ?_, by decide, by decide⟩
  intro i hi
  have hi0 : i = 0 := by simp at hi; omega
  subst hi0
  exact ⟨by decide, by decide⟩

/-- C5 counterexample: on the valid two-block chain `[gBlock, b1Block]`,
replacing the `previous_hash` of the block at index 1 by a different value
(without resealing) makes `_validate_chain` fail at index 1 via invariant 1
(stored hash differs from the recomputed digest, because `previous_hash` is
part of the digest input) — NOT via invariant 2 as the claim states. -/
theorem claim5_counterexample :
    b1Block = mkBlock 1 gBlock.hash "300" "p" 0 ∧
    validate_chain [gBlock, b1Block] = true ∧
    ("ff" : String) ≠ b1Block.previous_hash ∧
    validateReport [gBlock, { b1Block with previous_hash := "ff" }] =
      some (Miner.ValidationFailure.invalidHash 1) ∧
    validateReport [gBlock, { b1Block with previous_hash := "ff" }] ≠
      some (Miner.ValidationFailure.invalidPrev 1) := by
  refine ⟨by decide, by decide, by decide, by decide, by decide⟩

/-- C5 amended: tampering the `previous_hash` of the block at index `i > 0`
of a chain that validates (to any value whose induced digest differs from
the stored hash, which holds for every value absent a SHA-256 collision)
makes `_validate_chain` fail exactly at index `i`, but via invariant 1
(`hash != calculate_hash()`), since `previous_hash` feeds the block's own
digest; all earlier indices still pass their checks (the short-circuiting
loop reaches index `i`). -/
theorem claim5_tamper_fails_at_index_via_invariant1 (c : List Block) (i : Nat) (v : String)
    (hvalid : validate_chain c = true) (hpos : 0 < i) (hlen : i < c.length)
    (_hdiff : v ≠ (c.getD i dummyBlock).previous_hash)
    (hnc : calcHashFields (c.getD i dummyBlock).index v (c.getD i dummyBlock).timestamp
        (c.getD i dummyBlock).data (c.getD i dummyBlock).nonce ≠ (c.getD i dummyBlock).hash) :
    validateReport (c.set i { c.getD i dummyBlock with previous_hash := v }) =
      some (Miner.ValidationFailure.invalidHash i) := by
  have hnone : validateFrom 1 c = none := by
    rw [validate_chain] at hvalid
    exact Option.isNone_iff_eq_none.mp hvalid
  have h := validateFrom_set_tampered c 1 i v hnone hpos hlen hnc
  rw [validateReport, h]
  have harith : 1 + i - 1 = i := by omega
  rw [harith]

/-- Witness for C5 (amended) at the concrete two-block chain. -/
theorem claim5_witness :
    validateReport ([gBlock, b1Block].set 1
      { [gBlock, b1Block].getD 1 dummyBlock with previous_hash := "ff" }) =
      some (Miner.ValidationFailure.invalidHash 1) :=
  claim5_tamper_fails_at_index_via_invariant1 [gBlock, b1Block] 1 "ff"
    (by decide) (by decide) (by decide) (by decide) (by decide)

/-- C2: any `concurrent_mining` call that returns (under every schedule and
worker count) appends at most one candidate: on success the new chain is the
old chain with exactly the mined block appended (length grows by exactly
one), on failure the chain is unchanged; in both cases the previously
existing blocks and the difficulty are untouched. -/
theorem claim2_at_most_one_winner (bc : Blockchain) (ts data : String) (n : Int)
    (sched : List Nat) (bc1 : Blockchain) (r : Option Block)
    (h : concurrent_mining bc ts data n sched = some (bc1, r)) :
    (∀ b, r = some b →
      bc1.chain = bc.chain ++ [b] ∧ bc1.chain.length = bc.chain.length + 1) ∧
    (r = none → bc1.chain = bc.chain) ∧
    bc1.chain.take bc.chain.length = bc.chain ∧
    bc1.difficulty = bc.difficulty := by
  rw [concurrent_mining] at h
  rcases hlast : bc.chain.getLast? with _ | tip
  · rw [hlast] at h; exact absurd h (by simp)
  · simp only [hlast] at h
    rcases hres : (runRace ⟨mkBlock (tip.index + 1) tip.hash ts data 0, bc.chain,
        zeros bc.difficulty⟩ (initRace n) sched).result with _ | b0
    · simp only [hres, Option.some.injEq, Prod.mk.injEq] at h
      obtain ⟨hbc, hr⟩ := h
      subst hbc; subst hr
      refine ⟨fun b hb => by simp at hb, fun _ => rfl, List.take_length .., rfl⟩
    · simp only [hres, Option.some.injEq, Prod.mk.injEq] at h
      obtain ⟨hbc, hr⟩ := h
      subst hr
      refine ⟨fun b hb => ?_, fun hb => by simp at hb, ?_, by rw [← hbc]⟩
      · obtain hb0 : b0 = b := by simpa using hb
        subst hb0
        rw [← hbc]
        exact ⟨rfl, by simp⟩
      · rw [← hbc]
        show (bc.chain ++ [b0]).take bc.chain.length = bc.chain
        exact List.take_left ..

/-- Witness for C2: a successful difficulty-0 single-worker run appends
exactly the mined block, growing the chain by one. -/
theorem claim2_witness :
    (⟨[gBlock] ++ [c2Block], 0⟩ : Blockchain).chain.length =
      (⟨[gBlock], 0⟩ : Blockchain).chain.length + 1 :=
  ((claim2_at_most_one_winner ⟨[gBlock], 0⟩ "210" "d2" 1 [0, 0, 0, 0]
      ⟨[gBlock] ++ [c2Block], 0⟩ (some c2Block) (by decide)).1 c2Block rfl).2

/-- C3: on any completed `concurrent_mining` call that commits a block (for
any schedule, any difficulty in [0, 4], any worker count in [1, 16], from a
chain that validates), the committed candidate had passed the speculative
`_validate_chain` on `chain + [candidate]` before being stored in the result
slot, and the chain obtained by the final append validates as `True`. -/
theorem claim3_chain_integrity_after_mining (bc : Blockchain) (ts data : String) (n : Int)
    (sched : List Nat) (bc1 : Blockchain) (b : Block)
    (_hd0 : 0 ≤ bc.difficulty) (_hd4 : bc.difficulty ≤ 4)
    (_hn1 : 1 ≤ n) (_hn16 : n ≤ 16)
    (_hvalid : validate_blockchain bc = true)
    (h : concurrent_mining bc ts data n sched = some (bc1, some b)) :
    validate_chain (bc.chain ++ [b]) = true ∧ validate_blockchain bc1 = true := by
  rw [concurrent_mining] at h
  rcases hlast : bc.chain.getLast? with _ | tip
  · rw [hlast] at h; exact absurd h (by simp)
  · simp only [hlast] at h
    rcases hres : (runRace ⟨mkBlock (tip.index + 1) tip.hash ts data 0, bc.chain,
        zeros bc.difficulty⟩ (initRace n) sched).result with _ | b0
    · simp only [hres, Option.some.injEq, Prod.mk.injEq] at h
      exact absurd h.2 (by simp)
    · simp only [hres, Option.some.injEq, Prod.mk.injEq] at h
      obtain ⟨hbc, hr⟩ := h
      obtain hb0 : b0 = b := by simpa using hr
      subst hb0
      have hvalidated := runRace_result_valid
        ⟨mkBlock (tip.index + 1) tip.hash ts data 0, bc.chain, zeros bc.difficulty⟩
        sched (initRace n) (fun b hb => by simp [initRace] at hb) b0 hres
      refine ⟨hvalidated, ?_⟩
      rw [validate_blockchain, ← hbc]
      exact hvalidated

/-- Witness for C3 at a concrete successful difficulty-0 run. -/
theorem claim3_witness :
    validate_blockchain ⟨[gBlock] ++ [c3Block], 0⟩ = true :=
  (claim3_chain_integrity_after_mining ⟨[gBlock], 0⟩ "220" "d3" 1 [0, 0, 0, 0]
      ⟨[gBlock] ++ [c3Block], 0⟩ c3Block
      (by decide) (by decide) (by decide) (by decide) (by decide) (by decide)).2

/-- C7 counterexample: the orchestration performs no configuration
validation. A call with zero parallelism is not rejected: it runs to
completion and reports the normal "no block mined" outcome with the chain
unchanged (the embedding has no error outcome because the source raises
none); a negative difficulty is accepted by the constructor and merely
yields an empty required prefix. -/
theorem claim7_counterexample :
    concurrent_mining (Blockchain.init "100" 4) "200" "d" 0 [0, 1, 2] =
      some (Blockchain.init "100" 4, none) ∧
    (Blockchain.init "100" (-1)).difficulty = -1 ∧
    zeros (Blockchain.init "100" (-1)).difficulty = "" := by
  refine ⟨by decide, by decide, by decide⟩

/-- C7 amended: the code performs no configuration validation. Non-positive
parallelism spawns no workers (`range` of a non-positive count is empty), so
the call completes normally with the chain unchanged and no block mined, and
a negative difficulty is accepted, its required prefix `"0" * difficulty`
collapsing to the empty string so that every hash is acceptable. -/
theorem claim7_no_configuration_validation (bc : Blockchain) (ts data : String) (n : Int)
    (sched : List Nat) (hn : n ≤ 0) (hne : bc.chain ≠ []) :
    concurrent_mining bc ts data n sched = some (bc, none) ∧
    (bc.difficulty < 0 → ∀ h : String, startswith h (zeros bc.difficulty) = true) := by
  constructor
  · obtain ⟨tip, htip⟩ : ∃ tip, bc.chain.getLast? = some tip := by
      cases hc : bc.chain.getLast? with
      | none => exact absurd (List.getLast?_eq_none_iff.mp hc) hne
      | some tip => exact ⟨tip, rfl⟩
    rw [concurrent_mining]
    simp only [htip]
    have hz : n.toNat = 0 := Int.toNat_eq_zero.mpr hn
    have hw : (initRace n).workers = [] := by
      rw [initRace, hz]
      rfl
    rw [runRace_no_workers _ sched _ hw]
    rfl
  · intro hd hstr
    have hz : bc.difficulty.toNat = 0 := Int.toNat_eq_zero.mpr (le_of_lt hd)
    rw [zeros, hz]
    show List.isPrefixOf ([] : List Char) hstr.data = true
    cases hstr.data <;> rfl

/-- Witness for C7 (amended): zero workers at negative difficulty. -/
theorem claim7_witness :
    concurrent_mining (Blockchain.init "100" (-1)) "t" "d" (-2) [0] =
      some (Blockchain.init "100" (-1), none) ∧
    startswith "zz" (zeros (Blockchain.init "100" (-1)).difficulty) = true :=
  ⟨(claim7_no_configuration_validation (Blockchain.init "100" (-1)) "t" "d" (-2) [0]
      (by decide) (by decide)).1,
   (claim7_no_configuration_validation (Blockchain.init "100" (-1)) "t" "d" (-2) [0]
      (by decide) (by decide)).2 (by decide) "zz"⟩

/-- C1: an interleaving in which a worker is pre-empted before its first
`mine_block` attempt commits a block whose hash has NO leading zero at
difficulty 1. Schedule: worker 1 creates its copy; worker 0 creates its copy
and mines nonce 0 (digest `744d...`, no leading zero) and then nonce 1
(digest `01200...`, one leading zero) — the finder, which sets the stop
event inside `mine_block`; worker 1's first loop check then sees the event,
so it returns its untouched sealed nonce-0 copy (`c1Committed`), reaches the
commit section first, and the speculative validation accepts it (it is
sealed and linked; validation never consults the difficulty) even though its
hash fails the difficulty predicate. The race ends with every worker
terminated and `concurrent_mining` appends the unmined block. -/
theorem claim1_race_commits_block_without_required_zeros :
    gBlock = create_genesis_block "100" ∧
    c1Committed = mkBlock 1 gBlock.hash "200" "r" 0 ∧
    startswith c1Committed.hash (zeros 1) = false ∧
    runRace ⟨mkBlock 1 gBlock.hash "200" "r" 0, [gBlock], zeros 1⟩ (initRace 2)
        [1, 0, 0, 0, 1, 1, 1, 0, 0] =
      ⟨true, some c1Committed, [WorkerPC.done, WorkerPC.done]⟩ ∧
    concurrent_mining ⟨[gBlock], 1⟩ "200" "r" 2 [1, 0, 0, 0, 1, 1, 1, 0, 0] =
      some (⟨[gBlock] ++ [c1Committed], 1⟩, some c1Committed) := by
  refine ⟨by decide, by decide, by decide, by decide, by decide⟩

/-- Any worker at its commit attempt has already observed or set the stop
event: one race step preserves "a worker at `commitAttempt` implies the stop
event is set" (the event, once set, is never cleared). -/
theorem raceStep_commit_implies_stop (cfg : RaceConfig) (s : RaceState) (w : Nat)
    (hs : ∀ b, WorkerPC.commitAttempt b ∈ s.workers → s.stop = true) :
    ∀ b, WorkerPC.commitAttempt b ∈ (raceStep cfg s w).workers →
      (raceStep cfg s w).stop = true := by
  intro b hb
  rcases hw : s.workers.get? w with _ | pc
  · have hredux : raceStep cfg s w = s := by rw [raceStep, hw]
    rw [hredux] at hb ⊢
    exact hs b hb
  · have hredux : raceStep cfg s w =
        ⟨(workerStep cfg s.stop s.result pc).2.1, (workerStep cfg s.stop s.result pc).2.2,
          s.workers.set w (workerStep cfg s.stop s.result pc).1⟩ := by
      rw [raceStep, hw]
    rw [hredux] at hb ⊢
    have hmemOf : WorkerPC.commitAttempt b = (workerStep cfg s.stop s.result pc).1 ∨
        WorkerPC.commitAttempt b ∈ s.workers := by
      rcases List.mem_or_eq_of_mem_set hb with h1 | h1
      · exact Or.inr h1
      · exact Or.inl h1
    show (workerStep cfg s.stop s.result pc).2.1 = true
    cases pc with
    | whileCheck =>
        by_cases hstop : s.stop = true
        · simp [workerStep, hstop]
        · simp only [workerStep, hstop, if_false]
          rcases hmemOf with h1 | h1
          · rw [workerStep] at h1
            simp [hstop] at h1
          · exact absurd (hs b h1) hstop
    | mining b0 =>
        by_cases hstop : s.stop = true
        · simp [workerStep, hstop]
        · rcases hIter : mineIter cfg.zs b0 with ⟨b1, flag⟩
          cases flag with
          | true => simp [workerStep, hstop, hIter]
          | false =>
              simp only [workerStep, hstop, if_false, hIter]
              rcases hmemOf with h1 | h1
              · rw [workerStep] at h1
                simp [hstop, hIter] at h1
              · exact absurd (hs b h1) hstop
    | commitAttempt b0 =>
        have hstop : s.stop = true := hs b0 (List.get?_mem hw)
        rcases hres : s.result with _ | r
        · by_cases hv : validate_chain (cfg.chain ++ [b0]) = true <;>
            simp [workerStep, hres, hv, hstop]
        · simp [workerStep, hres, hstop]
    | done =>
        simp only [workerStep]
        rcases hmemOf with h1 | h1
        · rw [workerStep] at h1
          simp at h1
        · exact hs b h1

/-- The commit-implies-stop property holds after any schedule; in
particular a worker whose commit attempt was rejected always finds the stop
event set at its next loop check, so the REJECTED state can only step to
termination, never back to a fresh search. -/
theorem runRace_commit_implies_stop (cfg : RaceConfig) (sched : List Nat) :
    ∀ (s : RaceState), (∀ b, WorkerPC.commitAttempt b ∈ s.workers → s.stop = true) →
      ∀ b, WorkerPC.commitAttempt b ∈ (runRace cfg s sched).workers →
        (runRace cfg s sched).stop = true := by
  induction sched with
  | nil => intro s hs; exact hs
  | cons w rest ih =>
      intro s hs
      exact ih (raceStep cfg s w) (raceStep_commit_implies_stop cfg s w hs)

/-- C4: the REJECTED to SEARCHING transition never fires. Concrete run: one
worker at difficulty 0 over the base chain `[gBlock, badBlock]`, whose
linkage is already broken at index 1. The worker creates its copy and its
first `mine_block` iteration finds a candidate satisfying the (empty)
difficulty prefix — and `mine_block` itself sets the stop event before
returning. Inside the lock the result slot is empty but the speculative
validation of `chain + [candidate]` fails, so the candidate is rejected
(the slot stays empty; no genuine winner exists). Back at the loop head
(the state after schedule `[0, 0, 0]`) the worker sees the stop event it
set itself and its next step terminates it — it never resumes searching
with a fresh nonce attempt, and the completed call mines nothing. -/
theorem claim4_rejected_worker_terminates_instead_of_resuming :
    badBlock = mkBlock 1 "XX" "500" "bad" 0 ∧
    startswith (freshCopy c4Config.template).hash (zeros 0) = true ∧
    validate_chain ([gBlock, badBlock] ++ [freshCopy c4Config.template]) = false ∧
    runRace c4Config (initRace 1) [0, 0, 0] = ⟨true, none, [WorkerPC.whileCheck]⟩ ∧
    raceStep c4Config ⟨true, none, [WorkerPC.whileCheck]⟩ 0 =
      ⟨true, none, [WorkerPC.done]⟩ ∧
    concurrent_mining ⟨[gBlock, badBlock], 0⟩ "600" "w" 1 [0, 0, 0, 0] =
      some (⟨[gBlock, badBlock], 0⟩, none) := by
  refine ⟨by decide, by decide, by decide, by decide, by decide, by decide⟩
